import Mathlib

/-!
Shallow embedding of `src/wallet.py` (single-file wallet scanner).

The program locates the first transaction of a blockchain address by a
batched binary search over block ranges, and collects recent transactions
by a reverse-chronological batched scan, on top of a retrying JSON-RPC
call layer.  Remote calls are modelled as oracles
(`api : List Nat → Except Unit (List JsonResult)` etc.); the pure
decoding, matching and loop logic is translated directly from the source.
The coarse binary-search loop and the reverse scan loop are modelled with
explicit fuel: a result of `none` means the loop has not reached its exit
condition within `fuel` iterations (so `∀ fuel, loop fuel … = none`
expresses non-termination of the source loop).
-/

/-- Global `BATCH_SIZE = 1000` from wallet.py line 9. -/
def BATCH_SIZE : Nat := 1000

/-- A transaction object as decoded from an `eth_getBlockByNumber`
response (wallet.py accesses the keys `from`, `to`, `hash`, `value`,
`blockNumber`).  `to_` is `none` when the JSON field is `null`/absent
(contract creation). `value` and `blockNumber` stay hex strings as on the
wire; the core logic never parses them. -/
structure Transaction where
  hash : String
  from_ : String
  to_ : Option String
  value : String
  blockNumber : String
deriving DecidableEq, Repr

/-- One JSON-RPC sub-response inside a batch response, as inspected by
`get_block_transactions_batch` (wallet.py lines 55-57): the `result`
field may be missing, may be `null`, or may be a block object whose
`transactions` list may itself be absent (`.get('transactions', [])`). -/
inductive JsonResult where
  | missing : JsonResult
  | null : JsonResult
  | block : Option (List Transaction) → JsonResult
deriving DecidableEq, Repr

/-- The transactions a single sub-response contributes:
zero for a missing or null `result`, the block's list otherwise. -/
def subResponseTxs : JsonResult → List Transaction
  | JsonResult.missing => []
  | JsonResult.null => []
  | JsonResult.block txs => txs.getD []

/-- `get_block_transactions_batch` (wallet.py lines 43-58), restricted to
its pure part: folding a batch response into one transaction list.
Mirrors the Python loop `for r in response: if 'result' in r and
r['result'] is not None: transactions.extend(r['result'].get('transactions', []))`. -/
def get_block_transactions_batch (response : List JsonResult) : List Transaction :=
  response.foldl
    (fun transactions r =>
      match r with
      | JsonResult.block txs => transactions ++ txs.getD []
      | _ => transactions)
    []

/-- Python's `str.lower()` on a single character, for the ASCII range the
program's hex addresses live in: `A`-`Z` maps to `a`-`z`, everything else
is unchanged. -/
def lowerChar (c : Char) : Char :=
  if 'A' ≤ c ∧ c ≤ 'Z' then Char.ofNat (c.toNat + 32) else c

/-- Python's `str.lower()` (ASCII fragment), applied characterwise. -/
def lowerStr (s : String) : String := ⟨s.data.map lowerChar⟩

/-- The address-matching test used verbatim at wallet.py lines 72, 91 and
112: `tx['from'].lower() == address.lower() or (tx['to'] and
tx['to'].lower() == address.lower())`.  Python truthiness makes both
`None` and the empty string fail the `tx['to'] and …` guard. -/
def matchesTx (address : String) (tx : Transaction) : Bool :=
  lowerStr tx.from_ == lowerStr address ||
    match tx.to_ with
    | none => false
    | some t => (t != "") && (lowerStr t == lowerStr address)

/-- Matching predicate as §3 of the spec words it: `tx.from == address OR
tx.to == address` (case-insensitive), with `to` possibly absent; a
present (non-absent/non-null) `to` participates in the comparison. -/
def specMatches (address : String) (tx : Transaction) : Prop :=
  lowerStr tx.from_ = lowerStr address ∨
    ∃ t, tx.to_ = some t ∧ lowerStr t = lowerStr address

/-- Result of one logical `call_api` invocation: the JSON outcome (or the
error finally re-raised), how many transport attempts were made, and the
sequence of backoff sleeps (seconds) performed between attempts. -/
structure CallApiResult (ε α : Type) where
  outcome : Except ε α
  attempts : Nat
  sleeps : List Nat

/-- `call_api` (wallet.py lines 19-29): `for attempt in range(3)`, return
on first success, re-raise on the third failure, `time.sleep(2 **
attempt)` between attempts.  `transport n` is the outcome of the `n`-th
`session.post`/`raise_for_status`/`json()` attempt. -/
def call_api (transport : Nat → Except ε α) : CallApiResult ε α :=
  match transport 0 with
  | Except.ok v => ⟨Except.ok v, 1, []⟩
  | Except.error _ =>
    match transport 1 with
    | Except.ok v => ⟨Except.ok v, 2, [2 ^ 0]⟩
    | Except.error _ =>
      match transport 2 with
      | Except.ok v => ⟨Except.ok v, 3, [2 ^ 0, 2 ^ 1]⟩
      | Except.error e => ⟨Except.error e, 3, [2 ^ 0, 2 ^ 1]⟩

/-- The truthiness test `if creation_block:` at wallet.py line 153:
`None` and `0` are both falsy, so the recent-activity scan and report
run only for a non-`None`, non-zero creation block. -/
def main_runs_scan (creation_block : Option Nat) : Bool :=
  match creation_block with
  | none => false
  | some b => b != 0

/- ### Helper lemmas about `get_block_transactions_batch` -/

lemma gbt_foldl_append (response : List JsonResult) :
    ∀ acc : List Transaction,
      response.foldl
        (fun transactions r =>
          match r with
          | JsonResult.block txs => transactions ++ txs.getD []
          | _ => transactions)
        acc
      = acc ++ get_block_transactions_batch response := by
  induction response with
  | nil => intro acc; simp [get_block_transactions_batch]
  | cons r rest ih =>
    intro acc
    simp only [get_block_transactions_batch, List.foldl_cons]
    rw [ih, ih (match r with
      | JsonResult.block txs => [] ++ txs.getD []
      | _ => [])]
    cases r <;> simp

lemma gbt_cons (r : JsonResult) (rest : List JsonResult) :
    get_block_transactions_batch (r :: rest)
      = subResponseTxs r ++ get_block_transactions_batch rest := by
  show List.foldl _ _ (r :: rest) = _
  rw [List.foldl_cons, gbt_foldl_append]
  cases r <;> simp [subResponseTxs]

/- ### C7 -/

/-- C7: for every batch response, `get_block_transactions_batch`
contributes zero transactions for each sub-response whose `result` field
is missing or null, and otherwise appends all transactions of each block,
preserving per-block order and processing blocks in submitted order: the
output is exactly the in-order concatenation of each sub-response's
contribution (`subResponseTxs`, which is `[]` on `missing` and `null`).
The function is total, so no input raises an error. -/
theorem get_block_transactions_batch_spec (response : List JsonResult) :
    get_block_transactions_batch response
        = (response.map subResponseTxs).flatten
      ∧ subResponseTxs JsonResult.missing = []
      ∧ subResponseTxs JsonResult.null = [] := by
  refine ⟨?_, rfl, rfl⟩
  induction response with
  | nil => rfl
  | cons r rest ih => rw [gbt_cons, ih]; simp

/- ### C4 -/

/-- A transaction whose `to` field is present but the empty string,
used to separate Python's truthiness test from the spec's
"present (non-absent/non-null)" wording. -/
def txEmptyTo : Transaction :=
  { hash := "0xh", from_ := "0xf", to_ := some "", value := "0x0", blockNumber := "0x1" }

/-- C4 counterexample: the claim states the predicate holds iff
`tx.from` matches or `tx.to` is present (non-absent/non-null) and equals
the address case-insensitively.  For `address = ""` and a transaction
with `to = some ""` the spec-side predicate holds, but the code's
truthiness guard `tx['to'] and …` rejects the empty string, so
`matchesTx` is `false`. -/
theorem matchesTx_claim_counterexample :
    specMatches "" txEmptyTo ∧ matchesTx "" txEmptyTo = false := by
  constructor
  · exact Or.inr ⟨"", rfl, rfl⟩
  · rfl

/-- C4 amended: `matchesTx address tx` holds iff `tx.from` equals the
address case-insensitively, or `tx.to` is present, *non-empty*, and
equals the address case-insensitively; a transaction with absent (or
empty) `to` never matches on the `to` side. -/
theorem matchesTx_amended (address : String) (tx : Transaction) :
    matchesTx address tx = true ↔
      (lowerStr tx.from_ = lowerStr address ∨
        ∃ t, tx.to_ = some t ∧ t ≠ "" ∧ lowerStr t = lowerStr address) := by
  unfold matchesTx
  cases h : tx.to_ with
  | none =>
    simp [h]
  | some t =>
    simp only [h, Bool.or_eq_true, beq_iff_eq, Bool.and_eq_true, bne_iff_ne, ne_eq]
    constructor
    · rintro (hf | ⟨hne, hteq⟩)
      · exact Or.inl hf
      · exact Or.inr ⟨t, rfl, hne, hteq⟩
    · rintro (hf | ⟨t', ht', hne, hteq⟩)
      · exact Or.inl hf
      · cases Option.some.inj ht'
        exact Or.inr ⟨hne, hteq⟩

/- ### C5 -/

/-- C5: `call_api` makes at most 3 attempts; if the transport fails on
attempts 0 and 1 and succeeds on attempt 2 it returns that success (3
attempts, sleeps `2^0 = 1`s then `2^1 = 2`s, no raise); if all three
attempts fail it raises the third error after the 3rd failure, having
slept 1s after attempt 0 and 2s after attempt 1. -/
theorem call_api_retry_spec (ε α : Type) (transport : Nat → Except ε α) :
    (call_api transport).attempts ≤ 3
      ∧ (∀ e0 e1 (v : α), transport 0 = Except.error e0 →
          transport 1 = Except.error e1 → transport 2 = Except.ok v →
          call_api transport = ⟨Except.ok v, 3, [1, 2]⟩)
      ∧ (∀ e0 e1 e2, transport 0 = Except.error e0 →
          transport 1 = Except.error e1 → transport 2 = Except.error e2 →
          call_api transport = ⟨Except.error e2, 3, [1, 2]⟩) := by
  refine ⟨?_, ?_, ?_⟩
  · unfold call_api
    cases transport 0 <;> cases transport 1 <;> cases transport 2 <;> simp
  · intro e0 e1 v h0 h1 h2
    unfold call_api
    rw [h0, h1, h2]
    rfl
  · intro e0 e1 e2 h0 h1 h2
    unfold call_api
    rw [h0, h1, h2]
    rfl

/-- A transport that fails twice then succeeds, and one that always
fails, witnessing that the hypotheses of `call_api_retry_spec` are
satisfiable. -/
def transportFlaky : Nat → Except Unit Nat :=
  fun n => if n < 2 then Except.error () else Except.ok 42

theorem call_api_retry_spec_witness :
    call_api transportFlaky = ⟨Except.ok 42, 3, [1, 2]⟩
      ∧ call_api (fun _ => (Except.error "boom" : Except String Nat))
          = ⟨Except.error "boom", 3, [1, 2]⟩ :=
  ⟨(call_api_retry_spec Unit Nat transportFlaky).2.1 () () 42 rfl rfl rfl,
   (call_api_retry_spec String Nat (fun _ => Except.error "boom")).2.2
      "boom" "boom" "boom" rfl rfl rfl⟩

/- ### C10 -/

/-- C10: the entry point guards the scan/report with the truthiness test
`if creation_block:`, so a creation block of `0` (genesis) takes the same
"No transactions found for this address." branch as a `None` result, and
the recent-activity scan and report are not run in either case. -/
theorem main_runs_scan_genesis :
    main_runs_scan (some 0) = false
      ∧ main_runs_scan none = false
      ∧ main_runs_scan (some 0) = main_runs_scan none := by
  exact ⟨rfl, rfl, rfl⟩

/- ### Reverse-chronological scanner (wallet.py lines 100-125) -/

/-- Python `list(range(lo, hi + 1))` over (possibly negative) ints, the
block-number list built at wallet.py line 107. -/
def intRange (lo hi : Int) : List Int :=
  (List.range (hi + 1 - lo).toNat).map (fun (i : Nat) => lo + (i : Int))

/-- All transactions of the given blocks of a chain, in block order
(the semantics of a successful batched `eth_getBlockByNumber` fetch). -/
def allTxsI (chain : Int → List Transaction) : List Int → List Transaction
  | [] => []
  | b :: rest => chain b ++ allTxsI chain rest

/-- A fault-free RPC layer backed by a fixed chain: every requested block
is found and carries its transaction list. -/
def chainApiI (chain : Int → List Transaction) :
    List Int → Except Unit (List JsonResult) :=
  fun blocks => Except.ok (blocks.map (fun b => JsonResult.block (some (chain b))))

/-- The transactions in blocks `[lo, hi]` of a chain that match the
address, in ascending block order. -/
def allMatchI (chain : Int → List Transaction) (address : String)
    (lo hi : Int) : List Transaction :=
  (allTxsI chain (intRange lo hi)).filter (matchesTx address)

/-- `find_transactions_reverse_chronological` (wallet.py lines 100-125),
with the remote layer as an `api` oracle and the `while` loop given
explicit fuel (`none` = the loop has not exited within `fuel`
iterations).  `batch_start = max(end_block - BATCH_SIZE + 1, start_block)`
is inlined at each use.  On a fetch exception the collected list is kept
and the cursor still advances (the `except` branch only logs and sleeps). -/
def find_transactions_reverse_chronological
    (api : List Int → Except Unit (List JsonResult)) (address : String)
    (start_block : Int) (max_transactions : Nat) :
    Nat → Int → List Transaction → Option (List Transaction)
  | 0, end_block, transactions =>
    if start_block ≤ end_block ∧ transactions.length < max_transactions then
      none
    else some transactions
  | fuel + 1, end_block, transactions =>
    if start_block ≤ end_block ∧ transactions.length < max_transactions then
      match api (intRange (max (end_block - (BATCH_SIZE : Int) + 1) start_block) end_block) with
      | Except.ok response =>
        find_transactions_reverse_chronological api address start_block max_transactions
          fuel (max (end_block - (BATCH_SIZE : Int) + 1) start_block - 1)
          (transactions ++
            ((get_block_transactions_batch response).filter (matchesTx address)).take
              (max_transactions - transactions.length))
      | Except.error _ =>
        find_transactions_reverse_chronological api address start_block max_transactions
          fuel (max (end_block - (BATCH_SIZE : Int) + 1) start_block - 1) transactions
    else some transactions

/- ### Helper lemmas for the scanner -/

lemma gbt_map_chainI (chain : Int → List Transaction) :
    ∀ blocks : List Int,
      get_block_transactions_batch
          (blocks.map (fun b => JsonResult.block (some (chain b))))
        = allTxsI chain blocks := by
  intro blocks
  induction blocks with
  | nil => rfl
  | cons b rest ih =>
    rw [List.map_cons, gbt_cons, ih]
    rfl

lemma allTxsI_append (chain : Int → List Transaction) (l1 l2 : List Int) :
    allTxsI chain (l1 ++ l2) = allTxsI chain l1 ++ allTxsI chain l2 := by
  induction l1 with
  | nil => rfl
  | cons b rest ih => simp [allTxsI, ih]

lemma intRange_nil (lo hi : Int) (h : hi < lo) : intRange lo hi = [] := by
  unfold intRange
  have : (hi + 1 - lo).toNat = 0 := by omega
  rw [this]
  rfl

lemma intRange_split (lo m hi : Int) (h1 : lo ≤ m + 1) (h2 : m ≤ hi) :
    intRange lo hi = intRange lo m ++ intRange (m + 1) hi := by
  unfold intRange
  have hn : (hi + 1 - lo).toNat = (m + 1 - lo).toNat + (hi + 1 - (m + 1)).toNat := by
    omega
  rw [hn, List.range_add, List.map_append, List.map_map]
  congr 1
  apply List.map_congr_left
  intro i _
  simp only [Function.comp_apply]
  omega

lemma allMatchI_nil (chain : Int → List Transaction) (address : String)
    (lo hi : Int) (h : hi < lo) : allMatchI chain address lo hi = [] := by
  unfold allMatchI
  rw [intRange_nil lo hi h]
  rfl

lemma allMatchI_split (chain : Int → List Transaction) (address : String)
    (lo m hi : Int) (h1 : lo ≤ m + 1) (h2 : m ≤ hi) :
    allMatchI chain address lo hi
      = allMatchI chain address lo m ++ allMatchI chain address (m + 1) hi := by
  unfold allMatchI
  rw [intRange_split lo m hi h1 h2, allTxsI_append, List.filter_append]

/-- The scanner never holds more than `max_transactions` entries:
whenever it terminates starting from a collection within the cap, the
result is within the cap. -/
lemma scanner_cap (api : List Int → Except Unit (List JsonResult))
    (address : String) (start_block : Int) (max_transactions : Nat) :
    ∀ (fuel : Nat) (e : Int) (acc r : List Transaction),
      acc.length ≤ max_transactions →
      find_transactions_reverse_chronological api address start_block
          max_transactions fuel e acc = some r →
      r.length ≤ max_transactions := by
  intro fuel
  induction fuel with
  | zero =>
    intro e acc r hacc hr
    unfold find_transactions_reverse_chronological at hr
    split at hr
    · exact absurd hr (by simp)
    · cases hr
      exact hacc
  | succ fuel ih =>
    intro e acc r hacc hr
    unfold find_transactions_reverse_chronological at hr
    split at hr
    · rename_i hcond
      cases hcall : api (intRange (max (e - (BATCH_SIZE : Int) + 1) start_block) e) with
      | ok response =>
        rw [hcall] at hr
        refine ih _ _ _ ?_ hr
        rw [List.length_append]
        have hmin := List.length_take
          (max_transactions - acc.length)
          ((get_block_transactions_batch response).filter (matchesTx address))
        omega
      | error err =>
        rw [hcall] at hr
        exact ih _ _ _ hacc hr
    · cases hr
      exact hacc

/-- Under a fault-free chain-backed api, the scanner with enough fuel
terminates and collects (a permutation of) everything it still may
collect, provided the total stays below the cap. -/
lemma scanner_exact (api : List Int → Except Unit (List JsonResult))
    (chain : Int → List Transaction) (address : String)
    (start_block : Int) (max_transactions : Nat)
    (hapi : ∀ bs e : Int, start_block ≤ bs →
      api (intRange bs e)
        = Except.ok ((intRange bs e).map (fun b => JsonResult.block (some (chain b))))) :
    ∀ (fuel : Nat) (e : Int) (acc : List Transaction),
      (e + 1 - start_block).toNat ≤ fuel →
      acc.length + (allMatchI chain address start_block e).length < max_transactions →
      ∃ r, find_transactions_reverse_chronological api address start_block
              max_transactions fuel e acc = some r
        ∧ r.Perm (acc ++ allMatchI chain address start_block e) := by
  have h1000 : (BATCH_SIZE : Int) = 1000 := rfl
  intro fuel
  induction fuel with
  | zero =>
    intro e acc hfu hcnt
    have he : e < start_block := by omega
    refine ⟨acc, ?_, ?_⟩
    · unfold find_transactions_reverse_chronological
      rw [if_neg (fun h => absurd h.1 (by omega))]
    · rw [allMatchI_nil chain address _ _ he]
      simp
  | succ fuel ih =>
    intro e acc hfu hcnt
    by_cases he : start_block ≤ e
    · have hlen : acc.length < max_transactions := by omega
      have hbs_lo : start_block ≤ max (e - (BATCH_SIZE : Int) + 1) start_block :=
        le_max_right _ _
      have hbs_le : max (e - (BATCH_SIZE : Int) + 1) start_block ≤ e := by
        apply max_le <;> omega
      have hsplit := allMatchI_split chain address start_block
        (max (e - (BATCH_SIZE : Int) + 1) start_block - 1) e
        (by omega) (by omega)
      rw [sub_add_cancel] at hsplit
      have hlenMb :
          (allMatchI chain address (max (e - (BATCH_SIZE : Int) + 1) start_block) e).length
            ≤ max_transactions - acc.length := by
        have := congrArg List.length hsplit
        rw [List.length_append] at this
        omega
      have htake :
          (allMatchI chain address (max (e - (BATCH_SIZE : Int) + 1) start_block) e).take
              (max_transactions - acc.length)
            = allMatchI chain address (max (e - (BATCH_SIZE : Int) + 1) start_block) e :=
        List.take_of_length_le hlenMb
      have hcnt' :
          (acc ++ allMatchI chain address
              (max (e - (BATCH_SIZE : Int) + 1) start_block) e).length
            + (allMatchI chain address start_block
                (max (e - (BATCH_SIZE : Int) + 1) start_block - 1)).length
            < max_transactions := by
        have := congrArg List.length hsplit
        rw [List.length_append] at this
        rw [List.length_append]
        omega
      obtain ⟨r, hr, hperm⟩ := ih (max (e - (BATCH_SIZE : Int) + 1) start_block - 1)
        (acc ++ allMatchI chain address (max (e - (BATCH_SIZE : Int) + 1) start_block) e)
        (by omega) hcnt'
      refine ⟨r, ?_, ?_⟩
      · unfold find_transactions_reverse_chronological
        rw [if_pos ⟨he, hlen⟩, hapi _ e hbs_lo]
        simp only [gbt_map_chainI]
        show find_transactions_reverse_chronological api address start_block
            max_transactions fuel _
            (acc ++ (allMatchI chain address
              (max (e - (BATCH_SIZE : Int) + 1) start_block) e).take
                (max_transactions - acc.length)) = some r
        rw [htake]
        exact hr
      · refine hperm.trans ?_
        rw [hsplit, List.append_assoc]
        exact List.Perm.append_left acc List.perm_append_comm
    · refine ⟨acc, ?_, ?_⟩
      · unfold find_transactions_reverse_chronological
        rw [if_neg (fun h => he h.1)]
      · rw [allMatchI_nil chain address _ _ (by omega)]
        simp

/- ### C3 -/

/-- C3: the scanner never returns more than `max_transactions`
transactions; and when the blocks `[start_block, hi]` of the chain hold
fewer than `max_transactions` matching transactions, it terminates with
exactly those transactions (as a permutation of the ascending-order
list; the code visits batches newest-to-oldest), never requesting a
batch that starts below `start_block` (the api is only assumed to answer
such batches). -/
theorem find_transactions_rc_correct
    (api : List Int → Except Unit (List JsonResult))
    (chain : Int → List Transaction) (address : String)
    (start_block hi : Int) (max_transactions : Nat)
    (hapi : ∀ bs e : Int, start_block ≤ bs →
      api (intRange bs e)
        = Except.ok ((intRange bs e).map (fun b => JsonResult.block (some (chain b)))))
    (hfew : (allMatchI chain address start_block hi).length < max_transactions) :
    (∀ (fuel : Nat) (e : Int) (acc r : List Transaction),
        acc.length ≤ max_transactions →
        find_transactions_reverse_chronological api address start_block
            max_transactions fuel e acc = some r →
        r.length ≤ max_transactions)
    ∧ ∃ r, find_transactions_reverse_chronological api address start_block
            max_transactions ((hi + 1 - start_block).toNat) hi [] = some r
        ∧ r.Perm (allMatchI chain address start_block hi) := by
  constructor
  · exact scanner_cap api address start_block max_transactions
  · obtain ⟨r, hr, hperm⟩ :=
      scanner_exact api chain address start_block max_transactions hapi
        ((hi + 1 - start_block).toNat) hi [] le_rfl (by simpa using hfew)
    exact ⟨r, hr, by simpa using hperm⟩

/-- A concrete chain whose only matching transaction sits at block 3. -/
def txA : Transaction :=
  { hash := "0xa1", from_ := "0xAbC", to_ := some "0xDef",
    value := "0x1", blockNumber := "0x3" }

/-- Example chain for witnesses: block 3 holds `txA`, all other blocks
are empty. -/
def exChainI : Int → List Transaction := fun b => if b = 3 then [txA] else []

theorem find_transactions_rc_correct_witness :
    (allMatchI exChainI "0xabc" 0 5).length < 2
      ∧ ((∀ (fuel : Nat) (e : Int) (acc r : List Transaction),
            acc.length ≤ 2 →
            find_transactions_reverse_chronological (chainApiI exChainI) "0xabc" 0 2
                fuel e acc = some r →
            r.length ≤ 2)
        ∧ ∃ r, find_transactions_reverse_chronological (chainApiI exChainI) "0xabc" 0 2
                (((5 : Int) + 1 - 0).toNat) 5 [] = some r
            ∧ r.Perm (allMatchI exChainI "0xabc" 0 5)) :=
  ⟨by decide,
   find_transactions_rc_correct (chainApiI exChainI) exChainI "0xabc" 0 5 2
     (fun _ _ _ => rfl) (by decide)⟩

/- ### C9 -/

/-- C9: a batch-level fetch error in the scanner does not propagate and
leaves the collected transactions unchanged; the cursor still advances
past the failed batch (`end_block` becomes `batch_start - 1`) and the
loop proceeds with the next older batch, so the failed batch is not
retried at this layer. -/
theorem find_transactions_rc_error_step
    (api : List Int → Except Unit (List JsonResult)) (address : String)
    (start_block : Int) (max_transactions : Nat) (fuel : Nat)
    (end_block : Int) (transactions : List Transaction)
    (hcond : start_block ≤ end_block)
    (hlen : transactions.length < max_transactions)
    (herr : api (intRange (max (end_block - (BATCH_SIZE : Int) + 1) start_block)
        end_block) = Except.error ()) :
    find_transactions_reverse_chronological api address start_block
        max_transactions (fuel + 1) end_block transactions
      = find_transactions_reverse_chronological api address start_block
          max_transactions fuel
          (max (end_block - (BATCH_SIZE : Int) + 1) start_block - 1)
          transactions := by
  conv_lhs => unfold find_transactions_reverse_chronological
  rw [if_pos ⟨hcond, hlen⟩, herr]

/-- An RPC layer that fails every call, for the error-step witness. -/
def apiErr : List Int → Except Unit (List JsonResult) := fun _ => Except.error ()

theorem find_transactions_rc_error_step_witness :
    (0 : Int) ≤ 3 ∧ ([] : List Transaction).length < 1
      ∧ find_transactions_reverse_chronological apiErr "0xabc" 0 1 6 3 []
          = find_transactions_reverse_chronological apiErr "0xabc" 0 1 5
              (max ((3 : Int) - (BATCH_SIZE : Int) + 1) 0 - 1) [] :=
  ⟨by decide, by decide,
   find_transactions_rc_error_step apiErr "0xabc" 0 1 5 3 []
     (by decide) (by decide) rfl⟩

/- ### Binary-search locator (wallet.py lines 60-98) -/

/-- Python `range(start, stop, step)` for `step ≥ 1`:
`(stop - start + step - 1) / step` elements starting at `start`, spaced
`step` apart (the element count is how CPython sizes a range). -/
def pythonRange (start stop step : Nat) : List Nat :=
  List.range' start ((stop - start + step - 1) / step) step

/-- All transactions of the given blocks of a chain, in block order. -/
def allTxs (chain : Nat → List Transaction) : List Nat → List Transaction
  | [] => []
  | b :: rest => chain b ++ allTxs chain rest

/-- A fault-free RPC layer backed by a fixed chain (`Nat` block numbers,
as used by the locator whose arithmetic never goes negative). -/
def chainApiN (chain : Nat → List Transaction) :
    List Nat → Except Unit (List JsonResult) :=
  fun blocks => Except.ok (blocks.map (fun b => JsonResult.block (some (chain b))))

/-- Whether any transaction of block `b` matches the address. -/
def blockMatches (chain : Nat → List Transaction) (address : String) (b : Nat) : Bool :=
  (chain b).any (matchesTx address)

/-- The inner `for batch_start in range(start_block, mid_block + 1,
BATCH_SIZE)` loop of the coarse phase (wallet.py lines 67-78), over the
list of batch starts.  `mid1` is `mid_block + 1`.  Returns
`some batch_end` when a batch with a matching transaction is found (the
`break` with `end_block = batch_end`), `none` when the loop finishes
without a match.  A fetch exception skips to the next batch. -/
def coarse_scan (api : List Nat → Except Unit (List JsonResult))
    (address : String) (mid1 : Nat) : List Nat → Option Nat
  | [] => none
  | batch_start :: rest =>
    match api (pythonRange batch_start (min (batch_start + BATCH_SIZE) mid1) 1) with
    | Except.ok response =>
      if (get_block_transactions_batch response).any (matchesTx address) then
        some (min (batch_start + BATCH_SIZE) mid1)
      else coarse_scan api address mid1 rest
    | Except.error _ => coarse_scan api address mid1 rest

/-- The coarse `while start_block <= end_block` loop of
`binary_search_first_transaction` (wallet.py lines 62-83), with explicit
fuel; `none` means the loop has not exited within `fuel` iterations, and
`some (s, e)` is the final `(start_block, end_block)` pair. -/
def coarseLoop (api : List Nat → Except Unit (List JsonResult))
    (address : String) : Nat → Nat → Nat → Option (Nat × Nat)
  | 0, start_block, end_block =>
    if start_block ≤ end_block then none else some (start_block, end_block)
  | fuel + 1, start_block, end_block =>
    if start_block ≤ end_block then
      match coarse_scan api address ((start_block + end_block) / 2 + 1)
          (pythonRange start_block ((start_block + end_block) / 2 + 1) BATCH_SIZE) with
      | some batch_end => coarseLoop api address fuel start_block batch_end
      | none => coarseLoop api address fuel ((start_block + end_block) / 2 + 1) end_block
    else some (start_block, end_block)

/-- The fine-grained `for block in range(start_block, end_block + 1)`
scan (wallet.py lines 86-95): per-block fetch, return the first matching
block, skip a block whose fetch raises. -/
def fine_scan (api : List Nat → Except Unit (List JsonResult))
    (address : String) : List Nat → Option Nat
  | [] => none
  | block :: rest =>
    match api [block] with
    | Except.ok response =>
      if (get_block_transactions_batch response).any (matchesTx address) then
        some block
      else fine_scan api address rest
    | Except.error _ => fine_scan api address rest

/-- `binary_search_first_transaction` (wallet.py lines 60-98): the coarse
loop (with fuel) followed by the fine-grained scan of
`range(start_block, end_block + 1)`.  The outer `none` means the coarse
loop has not terminated within `fuel` iterations; `some r` is the Python
return value (`r = none` is Python `None`, "not found"). -/
def binary_search_first_transaction
    (api : List Nat → Except Unit (List JsonResult)) (address : String)
    (fuel start_block end_block : Nat) : Option (Option Nat) :=
  match coarseLoop api address fuel start_block end_block with
  | none => none
  | some (s, e) => some (fine_scan api address (pythonRange s (e + 1) 1))

/- ### Helper lemmas for the locator -/

lemma mem_pythonRange_one (a b x : Nat) :
    x ∈ pythonRange a b 1 ↔ a ≤ x ∧ x < b := by
  unfold pythonRange
  have h1 : (b - a + 1 - 1) / 1 = b - a := by omega
  rw [h1, List.mem_range'_1]
  omega

lemma allTxs_any (chain : Nat → List Transaction) (p : Transaction → Bool) :
    ∀ l : List Nat, (allTxs chain l).any p = l.any (fun b => (chain b).any p) := by
  intro l
  induction l with
  | nil => rfl
  | cons b rest ih => simp [allTxs, List.any_append, ih]

lemma gbt_map_chainN (chain : Nat → List Transaction) :
    ∀ blocks : List Nat,
      get_block_transactions_batch
          (blocks.map (fun b => JsonResult.block (some (chain b))))
        = allTxs chain blocks := by
  intro blocks
  induction blocks with
  | nil => rfl
  | cons b rest ih =>
    rw [List.map_cons, gbt_cons, ih]
    rfl

/-- On a fault-free chain api, one coarse batch answers "match" exactly
when one of its blocks matches. -/
lemma coarse_scan_cons (chain : Nat → List Transaction) (address : String)
    (mid1 bs : Nat) (rest : List Nat) :
    coarse_scan (chainApiN chain) address mid1 (bs :: rest)
      = if (pythonRange bs (min (bs + BATCH_SIZE) mid1) 1).any
            (blockMatches chain address) then
          some (min (bs + BATCH_SIZE) mid1)
        else coarse_scan (chainApiN chain) address mid1 rest := by
  conv_lhs => unfold coarse_scan
  show (if (get_block_transactions_batch
      ((pythonRange bs (min (bs + BATCH_SIZE) mid1) 1).map
        (fun b => JsonResult.block (some (chain b))))).any (matchesTx address) then _
    else _) = _
  rw [gbt_map_chainN, allTxs_any]
  rfl

/-- If block `B` is the first matching block at or after `s`, lies below
`mid1`, and the batch starts `range' s n BATCH_SIZE` cover `[s, mid1)`,
the coarse scan stops at the batch containing `B` and returns its
(exclusive) end bound, which is strictly above `B`. -/
lemma coarse_scan_found (chain : Nat → List Transaction) (address : String)
    (mid1 B : Nat) (hmatch : blockMatches chain address B = true) :
    ∀ (n : Nat) (s : Nat), s ≤ B → B < mid1 → mid1 ≤ s + n * BATCH_SIZE →
      (∀ b, s ≤ b → b < B → blockMatches chain address b = false) →
      ∃ be, B < be ∧ be ≤ mid1 ∧
        coarse_scan (chainApiN chain) address mid1 (List.range' s n BATCH_SIZE)
          = some be := by
  have hBS : BATCH_SIZE = 1000 := rfl
  intro n
  induction n with
  | zero =>
    intro s hsB hBmid hcov _
    exact absurd hcov (by omega)
  | succ n ih =>
    intro s hsB hBmid hcov hleast
    rw [show List.range' s (n + 1) BATCH_SIZE
        = s :: List.range' (s + BATCH_SIZE) n BATCH_SIZE from rfl]
    rw [coarse_scan_cons]
    by_cases hB : B < min (s + BATCH_SIZE) mid1
    · rw [if_pos ?_]
      · exact ⟨min (s + BATCH_SIZE) mid1, hB, min_le_right _ _, rfl⟩
      · exact List.any_eq_true.mpr
          ⟨B, (mem_pythonRange_one _ _ _).mpr ⟨hsB, hB⟩, hmatch⟩
    · have hbe : min (s + BATCH_SIZE) mid1 = s + BATCH_SIZE := by
        rcases min_choice (s + BATCH_SIZE) mid1 with h | h <;> omega
      rw [if_neg ?_]
      · refine ih (s + BATCH_SIZE) (by omega) hBmid
          (by rw [hBS] at hcov ⊢; omega) ?_
        intro b hb1 hb2
        exact hleast b (by omega) hb2
      · rw [Bool.not_eq_true, List.any_eq_false]
        intro x hx
        rw [mem_pythonRange_one] at hx
        simp [hleast x hx.1 (by omega)]

lemma coarse_scan_none (chain : Nat → List Transaction) (address : String)
    (mid1 : Nat) :
    ∀ (n : Nat) (s : Nat),
      (∀ b, s ≤ b → b < mid1 → blockMatches chain address b = false) →
      coarse_scan (chainApiN chain) address mid1 (List.range' s n BATCH_SIZE)
        = none := by
  intro n
  induction n with
  | zero => intro s _; rfl
  | succ n ih =>
    intro s hno
    rw [show List.range' s (n + 1) BATCH_SIZE
        = s :: List.range' (s + BATCH_SIZE) n BATCH_SIZE from rfl]
    rw [coarse_scan_cons, if_neg ?_]
    · exact ih (s + BATCH_SIZE) (fun b hb1 hb2 => hno b (by omega) hb2)
    · rw [Bool.not_eq_true, List.any_eq_false]
      intro x hx
      rw [mem_pythonRange_one] at hx
      simp [hno x hx.1 (by omega)]

lemma coarse_scan_pyrange_found (chain : Nat → List Transaction)
    (address : String) (mid1 s B : Nat) (hsB : s ≤ B) (hBmid : B < mid1)
    (hmatch : blockMatches chain address B = true)
    (hleast : ∀ b, s ≤ b → b < B → blockMatches chain address b = false) :
    ∃ be, B < be ∧ be ≤ mid1 ∧
      coarse_scan (chainApiN chain) address mid1 (pythonRange s mid1 BATCH_SIZE)
        = some be := by
  have hBS : BATCH_SIZE = 1000 := rfl
  unfold pythonRange
  refine coarse_scan_found chain address mid1 B hmatch _ s hsB hBmid ?_ hleast
  rw [hBS]
  omega

lemma coarse_scan_pyrange_none (chain : Nat → List Transaction)
    (address : String) (mid1 s : Nat)
    (hno : ∀ b, s ≤ b → b < mid1 → blockMatches chain address b = false) :
    coarse_scan (chainApiN chain) address mid1 (pythonRange s mid1 BATCH_SIZE)
      = none := by
  unfold pythonRange
  exact coarse_scan_none chain address mid1 _ s hno

/-- Core of the non-termination bug: if `B` is the first matching block
at or after `s` and `B ≤ e`, the coarse loop never exits, no matter how
much fuel it gets.  (After a match, `end_block` is set to the *exclusive*
batch bound, which never drops below `B + 1`, while `start_block` never
passes a matching block, so `start_block ≤ end_block` stays true.) -/
lemma coarseLoop_stuck (chain : Nat → List Transaction) (address : String)
    (B : Nat) (hmatch : blockMatches chain address B = true) :
    ∀ (fuel s e : Nat), s ≤ B → B ≤ e →
      (∀ b, s ≤ b → b < B → blockMatches chain address b = false) →
      coarseLoop (chainApiN chain) address fuel s e = none := by
  intro fuel
  induction fuel with
  | zero =>
    intro s e hsB hBe hleast
    unfold coarseLoop
    rw [if_pos (le_trans hsB hBe)]
  | succ fuel ih =>
    intro s e hsB hBe hleast
    have hse : s ≤ e := le_trans hsB hBe
    have hmid_ge : s ≤ (s + e) / 2 := by omega
    unfold coarseLoop
    rw [if_pos hse]
    by_cases hBmid : B < (s + e) / 2 + 1
    · obtain ⟨be, hBbe, _, hscan⟩ := coarse_scan_pyrange_found chain address
        ((s + e) / 2 + 1) s B hsB hBmid hmatch hleast
      rw [hscan]
      exact ih s be hsB (by omega) hleast
    · rw [coarse_scan_pyrange_none chain address ((s + e) / 2 + 1) s
        (fun b hb1 hb2 => hleast b hb1 (by omega))]
      exact ih ((s + e) / 2 + 1) e (by omega) hBe
        (fun b hb1 hb2 => hleast b (by omega) hb2)

/-- When no block in `[lo, hi]` matches, the coarse loop terminates
(with `start_block` strictly above `end_block = hi`) given fuel
`hi + 1 - lo`. -/
lemma coarseLoop_no_match (chain : Nat → List Transaction) (address : String)
    (lo hi : Nat)
    (hno : ∀ b, lo ≤ b → b ≤ hi → blockMatches chain address b = false) :
    ∀ (fuel s : Nat), lo ≤ s → hi + 1 ≤ s + fuel →
      ∃ s2, hi < s2 ∧
        coarseLoop (chainApiN chain) address fuel s hi = some (s2, hi) := by
  intro fuel
  induction fuel with
  | zero =>
    intro s hlos hfu
    refine ⟨s, by omega, ?_⟩
    unfold coarseLoop
    rw [if_neg (by omega)]
  | succ fuel ih =>
    intro s hlos hfu
    by_cases hse : s ≤ hi
    · have hmid_ge : s ≤ (s + hi) / 2 := by omega
      have hmid_le : (s + hi) / 2 ≤ hi := by omega
      obtain ⟨s2, hs2, hloop⟩ := ih ((s + hi) / 2 + 1) (by omega) (by omega)
      refine ⟨s2, hs2, ?_⟩
      unfold coarseLoop
      rw [if_pos hse]
      rw [coarse_scan_pyrange_none chain address ((s + hi) / 2 + 1) s
        (fun b hb1 hb2 => hno b (by omega) (by omega))]
      exact hloop
    · refine ⟨s, by omega, ?_⟩
      unfold coarseLoop
      rw [if_neg hse]

/- ### C6 -/

/-- C6: when no transaction in `[lo, hi]` matches the address (on a
fault-free chain api), `binary_search_first_transaction` completes the
coarse phase (fuel `hi + 1 - lo` suffices), runs the final fine-grained
pass over the narrowed window `range(start_block, end_block + 1)` (empty
here, since the coarse loop exits with `start_block > end_block`), and
returns Python `None` ("not found"). -/
theorem binary_search_no_match (chain : Nat → List Transaction)
    (address : String) (lo hi : Nat)
    (hno : ∀ b, lo ≤ b → b ≤ hi → ∀ tx ∈ chain b, matchesTx address tx = false) :
    binary_search_first_transaction (chainApiN chain) address (hi + 1 - lo) lo hi
      = some none := by
  have hno' : ∀ b, lo ≤ b → b ≤ hi → blockMatches chain address b = false := by
    intro b h1 h2
    rw [blockMatches, List.any_eq_false]
    intro tx htx
    simp [hno b h1 h2 tx htx]
  obtain ⟨s2, hs2, hloop⟩ :=
    coarseLoop_no_match chain address lo hi hno' (hi + 1 - lo) lo le_rfl (by omega)
  unfold binary_search_first_transaction
  rw [hloop]
  have hempty : pythonRange s2 (hi + 1) 1 = [] := by
    unfold pythonRange
    have h0 : (hi + 1 - s2 + 1 - 1) / 1 = 0 := by omega
    rw [h0]
    rfl
  show some (fine_scan (chainApiN chain) address (pythonRange s2 (hi + 1) 1))
    = some none
  rw [hempty]
  rfl

/-- The empty chain, for the no-match witness. -/
def emptyChain : Nat → List Transaction := fun _ => []

theorem binary_search_no_match_witness :
    (∀ b : Nat, 0 ≤ b → b ≤ 3 → ∀ tx ∈ emptyChain b, matchesTx "0xabc" tx = false)
      ∧ binary_search_first_transaction (chainApiN emptyChain) "0xabc" 4 0 3
          = some none :=
  ⟨fun _ _ _ tx htx => absurd htx (List.not_mem_nil tx),
   binary_search_no_match emptyChain "0xabc" 0 3
     (fun _ _ _ tx htx => absurd htx (List.not_mem_nil tx))⟩

/- ### C2 -/

/-- C2 is false of the code: whenever some block `B ∈ [lo, hi]` holds a
matching transaction (and fetches succeed), the coarse `while` loop of
`binary_search_first_transaction` never reaches `start > end` — with any
amount of fuel it is still running.  The bug: on a match the code sets
`end_block = batch_end`, the *exclusive* fetch bound, so `end_block`
never drops below `B + 1` while `start_block` never passes `B`, and the
range stops shrinking.  (`B` is taken as the first matching block at or
after `lo`.) -/
theorem coarseLoop_diverges_on_match (chain : Nat → List Transaction)
    (address : String) (lo hi B : Nat) (h1 : lo ≤ B) (h2 : B ≤ hi)
    (hmatch : blockMatches chain address B = true)
    (hleast : ∀ b, lo ≤ b → b < B → blockMatches chain address b = false)
    (fuel : Nat) :
    coarseLoop (chainApiN chain) address fuel lo hi = none :=
  coarseLoop_stuck chain address B hmatch fuel lo hi h1 h2 hleast

/-- A chain whose only matching transaction (for address `0xabc`) sits
at block 5. -/
def exChainN : Nat → List Transaction := fun b => if b = 5 then [txA] else []

theorem coarseLoop_diverges_on_match_witness :
    blockMatches exChainN "0xabc" 5 = true
      ∧ coarseLoop (chainApiN exChainN) "0xabc" 7 0 10 = none :=
  ⟨by decide,
   coarseLoop_diverges_on_match exChainN "0xabc" 0 10 5 (by decide) (by decide)
     (by decide) (fun b _ hb => by interval_cases b <;> decide) 7⟩

/- ### C1 -/

/-- C1 is false of the code: on a chain whose only matching transaction
sits at block 5 of the searched range `[0, 10]`, the claim says the
locator returns 5; instead, for every amount of fuel, the coarse loop is
still running (the search cycles at `(start, end) = (4, 6)` because
`end_block` is set to the exclusive batch bound 6), so the function
never returns at all.  (Even if the coarse loop did exit, it exits with
`start_block > end_block`, making the fine pass range empty, so no block
number could ever be returned.) -/
theorem binary_search_single_match_diverges (fuel : Nat) :
    binary_search_first_transaction (chainApiN exChainN) "0xabc" fuel 0 10
      = none := by
  unfold binary_search_first_transaction
  rw [coarseLoop_stuck exChainN "0xabc" 5 (by decide) fuel 0 10 (by decide)
    (by decide) (fun b _ hb => by interval_cases b <;> decide)]

/- ### C8 -/

/-- C8: in the coarse phase, a batch whose fetch raises is treated
exactly as "no match in this batch" — the scan steps to the next batch
start; and in the fine-grained phase, a block whose fetch raises is
skipped — the scan steps to the next block.  Both phases are total
functions of the oracle replies, so the exception never escapes
`binary_search_first_transaction`. -/
theorem locator_error_skips (api : List Nat → Except Unit (List JsonResult))
    (address : String) (mid1 batch_start block : Nat) (rest1 rest2 : List Nat)
    (herr1 : api (pythonRange batch_start (min (batch_start + BATCH_SIZE) mid1) 1)
        = Except.error ())
    (herr2 : api [block] = Except.error ()) :
    coarse_scan api address mid1 (batch_start :: rest1)
        = coarse_scan api address mid1 rest1
      ∧ fine_scan api address (block :: rest2) = fine_scan api address rest2 := by
  constructor
  · conv_lhs => unfold coarse_scan
    rw [herr1]
  · conv_lhs => unfold fine_scan
    rw [herr2]

/-- An RPC layer over `Nat` block lists that fails every call. -/
def apiErrN : List Nat → Except Unit (List JsonResult) := fun _ => Except.error ()

theorem locator_error_skips_witness :
    coarse_scan apiErrN "0xabc" 6 (0 :: [4]) = coarse_scan apiErrN "0xabc" 6 [4]
      ∧ fine_scan apiErrN "0xabc" (2 :: []) = fine_scan apiErrN "0xabc" [] :=
  locator_error_skips apiErrN "0xabc" 6 0 2 [4] [] rfl rfl
